import Mathlib

/-!
Verification development for the gtdb_downloader repository.

Strings are modelled as lists of characters (`Str`).  The Python string
operations used by the source (`str.strip`, `str.lower`, `str.split`,
`str.startswith`, `"sep".join`) are embedded as executable functions on
`Str`, restricted to the ASCII behaviour the catalog data exercises.

The embedded program functions keep the names of the Python functions they
are translated from:
  * `get_taxonomy_components`, `matchesQT` (per-row body of
    `MetadataParser.get_genomes_by_taxon`), `get_genomes_by_taxon`
    (metadata.py),
  * `_load_rows` (row loop of `MetadataParser._load_from_csv` /
    `_load_from_gzip`, metadata.py),
  * `_normalize_accession`, `get_species_cluster_representative`,
    `is_species_cluster_representative` (metadata.py),
  * `generate_download_link` (downloader.py),
  * `missing_downloads`, `fallback_downloads` (wget fallback of
    `download_genomes_for_taxon`, cli.py).
-/

/-! ## Definitions -/


/-- Strings modelled as lists of characters. -/
abbrev Str := List Char

/-- Convert a Lean string literal to the `Str` model. -/
def toStr (s : String) : Str := s.data

/-- ASCII whitespace, as recognised by Python `str.strip` / `str.isspace`. -/
def isWsChar (c : Char) : Bool :=
  c = ' ' || c = '\t' || c = '\n' || c = '\x0d' || c = '\x0b' || c = '\x0c'

/-- ASCII lower-casing of one character, as Python `str.lower` acts on ASCII. -/
def lowerChar (c : Char) : Char :=
  if 65 ≤ c.toNat ∧ c.toNat ≤ 90 then Char.ofNat (c.toNat + 32) else c

/-- Python `s.lower()`. -/
def toLowerS (s : Str) : Str := s.map lowerChar

/-- Drop leading whitespace (`str.lstrip`). -/
def trimLeft (s : Str) : Str := s.dropWhile isWsChar

/-- Drop trailing whitespace (`str.rstrip`). -/
def trimRight (s : Str) : Str := (s.reverse.dropWhile isWsChar).reverse

/-- Python `str.strip`. -/
def trim (s : Str) : Str := trimRight (trimLeft s)

/-- Python `s.split(sep)` for a one-character separator: always returns at
least one piece, empty pieces included. -/
def splitChar (sep : Char) : Str → List Str
  | [] => [[]]
  | c :: rest =>
    let r := splitChar sep rest
    if c = sep then [] :: r
    else (c :: r.headD []) :: r.tail

/-- Python `sep.join(pieces)` for a one-character separator. -/
def joinChar (sep : Char) : List Str → Str
  | [] => []
  | [p] => p
  | p :: q :: ps => p ++ sep :: joinChar sep (q :: ps)

/-- All characters of a string are whitespace. -/
def AllWs (w : Str) : Prop := ∀ c ∈ w, isWsChar c = true

def segmentCore (s : Str) : List Str :=
  ((splitChar ';' s).map trim).filter (fun p => p ≠ [])

def get_taxonomy_components (s : Str) : List Str :=
  if s = [] then [] else segmentCore s

/-- Python `"__" in component`. -/
def hasDunder : Str → Bool
  | [] => false
  | [_] => false
  | c :: d :: rest => (c = '_' && d = '_') || hasDunder (d :: rest)

/-- Everything after the first occurrence of `"__"`
(`component.split("__", 1)[1]`). -/
def afterDunder : Str → Str
  | [] => []
  | [_] => []
  | c :: d :: rest => if c = '_' && d = '_' then rest else afterDunder (d :: rest)

/-- The helper `_strip_rank_prefix` of `get_genomes_by_taxon`
(metadata.py lines 70-73). -/
def stripRankPfx (s : Str) : Str :=
  if hasDunder s then afterDunder s else s

/-- Membership test of a string in a list of strings (Python `in`). -/
def memStr (x : Str) : List Str → Bool
  | [] => false
  | y :: ys => decide (x = y) || memStr x ys

/-- The component-by-component loop of the path-query branch
(metadata.py lines 92-104), on the lower-cased component lists and the
lower-cased bare-name lists. -/
def pathLoop : List Str → List Str → List Str → List Str → Bool
  | [], _, _, _ => true
  | qp :: qps, qn :: qns, tp :: tps, tn :: tns =>
    (if hasDunder qp then decide (qp = tp) else decide (qn = tn)) &&
      pathLoop qps qns tps tns
  | _, _, _, _ => false

/-- Matching decision from the segmented query components and the
segmented taxonomy components (metadata.py lines 67-75 and 86-118).
The four mapped lists are `query_components_lower`, `query_names_lower`,
`taxonomy_components_lower` and `taxonomy_names_lower` of the source. -/
def matchesCore (qcs tcs : List Str) : Option Bool :=
  if 1 < (qcs.map toLowerS).length then
    if (tcs.map toLowerS).length < (qcs.map toLowerS).length then some false
    else
      some (pathLoop (qcs.map toLowerS)
        (qcs.map (fun p => toLowerS (stripRankPfx p)))
        (tcs.map toLowerS)
        (tcs.map (fun p => toLowerS (stripRankPfx p))))
  else
    match qcs.map toLowerS, qcs.map (fun p => toLowerS (stripRankPfx p)) with
    | qp :: _, qn :: _ =>
      some (if hasDunder qp then memStr qp (tcs.map toLowerS)
        else memStr qn (tcs.map (fun p => toLowerS (stripRankPfx p))))
    | _, _ => none

/-- One row of `get_genomes_by_taxon`: does the row's taxonomy string
match the query?  `some b` is the boolean outcome, `none` the
`IndexError`. -/
def matchesQT (query tax : Str) : Option Bool :=
  if trim query = [] then some false
  else if tax = [] then some false
  else matchesCore (segmentCore (trim query)) (get_taxonomy_components tax)

/-- A catalog row: association list from field name to string value
(a `csv.DictReader` row). -/
abbrev Row := List (Str × Str)

/-- Python `row.get(key)`. -/
def rowGet (row : Row) (k : Str) : Option Str :=
  (row.find? (fun p => decide (p.1 = k))).map (fun p => p.2)

/-- The record loop of `get_genomes_by_taxon` (metadata.py lines 77-118).
`Except.error ()` models the uncaught `IndexError`. -/
def gLoop (taxon field : Str) : List (Str × Row) → Except Unit (List Str)
  | [] => Except.ok []
  | (gid, row) :: rest =>
    match matchesQT taxon ((rowGet row field).getD []) with
    | none => Except.error ()
    | some true => (gLoop taxon field rest).map (fun l => gid :: l)
    | some false => gLoop taxon field rest

/-- `MetadataParser.get_genomes_by_taxon` (metadata.py lines 50-120) over
the in-memory catalog `data`. -/
def get_genomes_by_taxon (data : List (Str × Row)) (taxon : Str)
    (field : Str) : Except Unit (List Str) :=
  if trim taxon = [] then Except.ok []
  else gLoop taxon field data

/-- A string obtained from `p` by adding only leading and trailing
whitespace. -/
def PadOf (p padded : Str) : Prop :=
  ∃ w1 w2, AllWs w1 ∧ AllWs w2 ∧ padded = w1 ++ p ++ w2

instance (w : Str) : Decidable (AllWs w) := by
  unfold AllWs
  infer_instance

/-- The identifier choice `row.get("accession") or row.get("Genome")`
followed by the truthiness test `if genome_id:` (metadata.py lines 37-38
and 46-47); `none` means the row is dropped. -/
def rowIdentifier (row : Row) : Option Str :=
  if (rowGet row (toStr "accession")).getD [] ≠ [] then
    some ((rowGet row (toStr "accession")).getD [])
  else if (rowGet row (toStr "Genome")).getD [] ≠ [] then
    some ((rowGet row (toStr "Genome")).getD [])
  else none

/-- Python dict assignment `self.data[genome_id] = row`: overwrite in
place, else append. -/
def dictInsert (m : List (Str × Row)) (k : Str) (v : Row) :
    List (Str × Row) :=
  if m.any (fun p => decide (p.1 = k)) then
    m.map (fun p => if p.1 = k then (k, v) else p)
  else m ++ [(k, v)]

/-- The row loop shared by `_load_from_csv` and `_load_from_gzip`
(metadata.py lines 36-39 and 45-48).  The loop contains no `raise`; the
`Except` codomain records that no error value is ever produced by it. -/
def _load_rows (rows : List Row) : Except Unit (List (Str × Row)) :=
  Except.ok (rows.foldl
    (fun data row =>
      match rowIdentifier row with
      | some gid => dictInsert data gid row
      | none => data) [])

/-- Python `str.startswith` for our string model. -/
def startsWith : Str → Str → Bool
  | _, [] => true
  | [], _ :: _ => false
  | c :: s, p :: ps => decide (c = p) && startsWith s ps

/-- `MetadataParser._normalize_accession` (metadata.py lines 237-251). -/
def _normalize_accession (accession : Option Str) : Str :=
  match accession with
  | none => []
  | some a =>
    if a = [] then []
    else
      if startsWith (trim a) (toStr "RS_") = true ∨
          startsWith (trim a) (toStr "GB_") = true then
        (trim a).drop 3
      else trim a

/-- Python `self.data.get(genome_id)`. -/
def lookupRow (data : List (Str × Row)) (gid : Str) : Option Row :=
  (data.find? (fun p => decide (p.1 = gid))).map (fun p => p.2)

/-- Truthy marker values of `is_species_cluster_representative`
(metadata.py line 288). -/
def truthyMarkerValues : List Str :=
  [toStr "t", toStr "true", toStr "1", toStr "yes", toStr "y"]

/-- The explicit boolean-marker scan of
`is_species_cluster_representative` (metadata.py lines 280-289). -/
def markerTruthy (row : Row) : Bool :=
  [toStr "gtdb_representative", toStr "species_representative",
    toStr "is_representative"].any
    (fun k =>
      memStr (toLowerS (trim ((rowGet row k).getD []))) truthyMarkerValues)

/-- First non-empty normalized representative field
(metadata.py lines 261-268). -/
def firstRepField (row : Row) : List Str → Option Str
  | [] => none
  | k :: ks =>
    if _normalize_accession (rowGet row k) ≠ [] then
      some (_normalize_accession (rowGet row k))
    else firstRepField row ks

/-- `MetadataParser.get_species_cluster_representative`
(metadata.py lines 253-269). -/
def get_species_cluster_representative (data : List (Str × Row))
    (gid : Str) : Option Str :=
  match lookupRow data gid with
  | none => none
  | some row =>
    if row = [] then none
    else
      firstRepField row
        [toStr "gtdb_genome_representative",
         toStr "species_cluster_representative",
         toStr "gtdb_species_representative"]

/-- `row.get("accession") or row.get("Genome")` (metadata.py line 291). -/
def accessionOrGenome (row : Row) : Option Str :=
  match rowGet row (toStr "accession") with
  | some a => if a ≠ [] then some a else rowGet row (toStr "Genome")
  | none => rowGet row (toStr "Genome")

/-- `MetadataParser.is_species_cluster_representative`
(metadata.py lines 271-296). -/
def is_species_cluster_representative (data : List (Str × Row))
    (gid : Str) : Bool :=
  match lookupRow data gid with
  | none => false
  | some row =>
    if row = [] then false
    else if markerTruthy row then true
    else
      match get_species_cluster_representative data gid with
      | some rep =>
        _normalize_accession (accessionOrGenome row) ≠ [] && rep ≠ [] &&
          decide (_normalize_accession (accessionOrGenome row) = rep)
      | none => false

/-- A genome metadata record as consumed by `generate_download_link`:
its `accession` and `ncbi_assembly_name` fields, with `[]` standing for a
missing or empty (falsy) dictionary value. -/
structure GenomeRecord where
  accession : Str
  ncbi_assembly_name : Str

/-- The distinct `ValueError` cases of `generate_download_link`. -/
inductive LinkError
  | missingFields
  | unknownFormat
  | invalidFormat
  | tooShort
deriving DecidableEq

/-- The `RS_`/`GB_` source-tag strip of `generate_download_link`
(downloader.py lines 57-65; unlike `_normalize_accession`, no
whitespace stripping happens here). -/
def stripSourceTag (a : Str) : Str :=
  if startsWith a (toStr "RS_") = true then a.drop 3
  else if startsWith a (toStr "GB_") = true then a.drop 3
  else a

/-- `parts[1].split(".")[0]` of `generate_download_link`
(downloader.py lines 73-78). -/
def numericId (acc : Str) : Str :=
  (splitChar '.' (((splitChar '_' acc).drop 1).headD [])).headD []

/-- Digit grouping and URL construction of `generate_download_link`
(downloader.py lines 80-107). -/
def urlFromParts (acc asm : Str) : Except LinkError Str :=
  let numeric_id := numericId acc
  let d1 := numeric_id.take 3
  let d2 := if 6 ≤ numeric_id.length then (numeric_id.drop 3).take 3 else []
  let d3 := if 6 < numeric_id.length then numeric_id.drop 6 else []
  if d2 = [] ∨ d3 = [] then Except.error LinkError.tooShort
  else
    Except.ok (toStr "https://ftp.ncbi.nlm.nih.gov/genomes/all/" ++
      (splitChar '_' acc).headD [] ++ '/' :: d1 ++ '/' :: d2 ++ '/' :: d3 ++
      '/' :: (acc ++ '_' :: asm) ++
      '/' :: (acc ++ '_' :: asm) ++ toStr "_genomic.fna.gz")

/-- `generate_download_link` (downloader.py lines 37-107). -/
def generate_download_link (rec : GenomeRecord) : Except LinkError Str :=
  if rec.accession = [] ∨ rec.ncbi_assembly_name = [] then
    Except.error LinkError.missingFields
  else if startsWith (stripSourceTag rec.accession) (toStr "GCA_") = true ∨
      startsWith (stripSourceTag rec.accession) (toStr "GCF_") = true then
    if (splitChar '_' (stripSourceTag rec.accession)).length < 2 then
      Except.error LinkError.invalidFormat
    else urlFromParts (stripSourceTag rec.accession) rec.ncbi_assembly_name
  else Except.error LinkError.unknownFormat

/-- One entry of the `downloadable` plan list of
`download_genomes_for_taxon` (cli.py lines 127 and 163-165):
(genome id, taxonomy, url, target path, representative flag, cluster). -/
structure PlanEntry where
  genomeId : Str
  taxonomy : Str
  url : Str
  path : Str
  isRep : Bool
  cluster : Str

/-- `missing_downloads` (cli.py lines 173-175): the (url, path) pairs of
plan entries whose target file does not already exist, in plan order. -/
def missing_downloads (existsOnDisk : Str → Bool)
    (downloadable : List PlanEntry) : List (Str × Str) :=
  (downloadable.filter (fun e => !existsOnDisk e.path)).map
    (fun e => (e.url, e.path))

/-- Python dict assignment into `batch_results` (cli.py line 203). -/
def dictInsertBool (m : List (Str × Bool)) (k : Str) (v : Bool) :
    List (Str × Bool) :=
  if m.any (fun p => decide (p.1 = k)) then
    m.map (fun p => if p.1 = k then (k, v) else p)
  else m ++ [(k, v)]

/-- The wget fallback loop (cli.py lines 200-203): each missing download
is submitted sequentially to the single-transfer collaborator `transfer`.
The first component of the result is the trace of transfer calls, in
order; the second is the `batch_results` mapping. -/
def fallback_downloads (transfer : Str → Str → Bool)
    (missing : List (Str × Str)) :
    List (Str × Str) × List (Str × Bool) :=
  missing.foldl
    (fun acc entry =>
      (acc.1 ++ [entry], dictInsertBool acc.2 entry.2
        (transfer entry.1 entry.2)))
    ([], [])

/-! ## Theorems -/

theorem toNat_ofNat_valid (n : Nat) (h : n.isValidChar) :
    (Char.ofNat n).toNat = n := by
  simp only [Char.ofNat, dif_pos h]
  simp [Char.ofNatAux, Char.toNat, UInt32.toNat]

theorem char_eq_iff_toNat (c d : Char) : c = d ↔ c.toNat = d.toNat := by
  constructor
  · intro h; rw [h]
  · intro h
    apply Char.eq_of_val_eq
    apply UInt32.eq_of_toBitVec_eq
    have h1 : c.val.toBitVec.toNat = d.val.toBitVec.toNat := h
    exact BitVec.eq_of_toNat_eq h1

theorem lowerChar_toNat_of_upper (c : Char) (h : 65 ≤ c.toNat ∧ c.toNat ≤ 90) :
    (lowerChar c).toNat = c.toNat + 32 := by
  have hv : (c.toNat + 32).isValidChar := by
    left
    omega
  simp only [lowerChar, if_pos h]
  exact toNat_ofNat_valid _ hv

theorem lowerChar_eq_self (c : Char) (h : ¬(65 ≤ c.toNat ∧ c.toNat ≤ 90)) :
    lowerChar c = c := by
  simp only [lowerChar, if_neg h]

/-- A character whose code is outside both letter ranges is produced by
`lowerChar` only from itself. -/
theorem lowerChar_eq_iff (c d : Char)
    (hd : d.toNat < 65 ∨ (90 < d.toNat ∧ d.toNat < 97) ∨ 122 < d.toNat) :
    lowerChar c = d ↔ c = d := by
  by_cases h : 65 ≤ c.toNat ∧ c.toNat ≤ 90
  · rw [char_eq_iff_toNat, char_eq_iff_toNat, lowerChar_toNat_of_upper c h]
    omega
  · rw [lowerChar_eq_self c h]

theorem isWsChar_toNat (c : Char) :
    isWsChar c = true ↔
      c.toNat = 32 ∨ c.toNat = 9 ∨ c.toNat = 10 ∨ c.toNat = 13 ∨
      c.toNat = 11 ∨ c.toNat = 12 := by
  simp only [isWsChar, Bool.or_eq_true, decide_eq_true_eq]
  rw [char_eq_iff_toNat, char_eq_iff_toNat, char_eq_iff_toNat,
    char_eq_iff_toNat, char_eq_iff_toNat, char_eq_iff_toNat]
  norm_num [show (' ').toNat = 32 from rfl, show ('\t').toNat = 9 from rfl,
    show ('\n').toNat = 10 from rfl, show ('\x0d').toNat = 13 from rfl,
    show ('\x0b').toNat = 11 from rfl, show ('\x0c').toNat = 12 from rfl]
  tauto

theorem isWsChar_lowerChar (c : Char) : isWsChar (lowerChar c) = isWsChar c := by
  by_cases h : 65 ≤ c.toNat ∧ c.toNat ≤ 90
  · have h1 := lowerChar_toNat_of_upper c h
    cases ha : isWsChar (lowerChar c) with
    | true =>
      have := (isWsChar_toNat _).1 ha
      omega
    | false =>
      cases hb : isWsChar c with
      | true =>
        have := (isWsChar_toNat _).1 hb
        omega
      | false => rfl
  · rw [lowerChar_eq_self c h]

theorem lowerChar_idem (c : Char) : lowerChar (lowerChar c) = lowerChar c := by
  by_cases h : 65 ≤ c.toNat ∧ c.toNat ≤ 90
  · have h1 := lowerChar_toNat_of_upper c h
    apply lowerChar_eq_self
    omega
  · rw [lowerChar_eq_self c h, lowerChar_eq_self c h]

theorem lowerChar_semi (c : Char) : lowerChar c = ';' ↔ c = ';' :=
  lowerChar_eq_iff c ';' (by left; decide)

theorem lowerChar_underscore (c : Char) : lowerChar c = '_' ↔ c = '_' :=
  lowerChar_eq_iff c '_' (by right; left; decide)

theorem splitChar_ne_nil (sep : Char) (s : Str) : splitChar sep s ≠ [] := by
  cases s with
  | nil => simp [splitChar]
  | cons c rest =>
    simp only [splitChar]
    split <;> simp

theorem splitChar_cons_of_ne (sep c : Char) (s : Str) (hc : c ≠ sep) :
    splitChar sep (c :: s) =
      (c :: (splitChar sep s).headD []) :: (splitChar sep s).tail := by
  simp only [splitChar, if_neg hc]

theorem splitChar_cons_sep (sep : Char) (s : Str) :
    splitChar sep (sep :: s) = [] :: splitChar sep s := by
  simp [splitChar]

theorem splitChar_append_left (sep : Char) (a b : Str) (h : sep ∉ a) :
    splitChar sep (a ++ b) =
      (a ++ (splitChar sep b).headD []) :: (splitChar sep b).tail := by
  induction a with
  | nil =>
    simp only [List.nil_append]
    have hne := splitChar_ne_nil sep b
    cases hsb : splitChar sep b with
    | nil => exact absurd hsb hne
    | cons p ps => simp
  | cons c a ih =>
    have hc : c ≠ sep := by
      intro hx
      exact h (hx ▸ List.mem_cons_self c a)
    have ha : sep ∉ a := fun hx => h (List.mem_cons_of_mem c hx)
    rw [List.cons_append, splitChar_cons_of_ne sep c (a ++ b) hc, ih ha]
    simp

theorem splitChar_no_sep (sep : Char) (a : Str) (h : sep ∉ a) :
    splitChar sep a = [a] := by
  have h1 := splitChar_append_left sep a [] h
  rw [List.append_nil] at h1
  rw [h1]
  simp [splitChar]

theorem getLastD_cons_of_ne_nil {α : Type} (x d : α) (l : List α) (h : l ≠ []) :
    (x :: l).getLastD d = l.getLastD d := by
  cases l with
  | nil => exact absurd rfl h
  | cons y ys => simp [List.getLastD]

theorem dropLast_cons_ne_nil {α : Type} (x : α) (l : List α) (h : l ≠ []) :
    (x :: l).dropLast = x :: l.dropLast := by
  cases l with
  | nil => exact absurd rfl h
  | cons y ys => simp

theorem splitChar_append_right (sep : Char) (s w : Str) (h : sep ∉ w) :
    splitChar sep (s ++ w) =
      (splitChar sep s).dropLast ++ [(splitChar sep s).getLastD [] ++ w] := by
  induction s with
  | nil =>
    rw [List.nil_append, splitChar_no_sep sep w h]
    simp [splitChar, List.getLastD]
  | cons c s ih =>
    by_cases hc : c = sep
    · subst hc
      rw [List.cons_append, splitChar_cons_sep, splitChar_cons_sep, ih]
      have hne := splitChar_ne_nil c s
      rw [dropLast_cons_ne_nil _ _ hne, getLastD_cons_of_ne_nil _ _ _ hne]
      simp
    · rw [List.cons_append, splitChar_cons_of_ne sep c (s ++ w) hc,
        splitChar_cons_of_ne sep c s hc, ih]
      have hne := splitChar_ne_nil sep s
      cases hs : splitChar sep s with
      | nil => exact absurd hs hne
      | cons p ps =>
        cases ps with
        | nil => simp [List.getLastD]
        | cons q qs =>
          have hqs : (q :: qs) ≠ [] := by simp
          rw [dropLast_cons_ne_nil p _ hqs, getLastD_cons_of_ne_nil p _ _ hqs]
          simp

theorem splitChar_join (sep : Char) (ps : List Str) (hne : ps ≠ [])
    (h : ∀ p ∈ ps, sep ∉ p) :
    splitChar sep (joinChar sep ps) = ps := by
  induction ps with
  | nil => exact absurd rfl hne
  | cons p ps ih =>
    cases ps with
    | nil =>
      simp only [joinChar]
      exact splitChar_no_sep sep p (h p (List.mem_cons_self p []))
    | cons q qs =>
      simp only [joinChar]
      have hp : sep ∉ p := h p (List.mem_cons_self _ _)
      rw [splitChar_append_left sep p (sep :: joinChar sep (q :: qs)) hp,
        splitChar_cons_sep,
        ih (by simp) (fun x hx => h x (List.mem_cons_of_mem p hx))]
      simp

theorem mem_of_mem_splitChar (sep : Char) (s p : Str) (c : Char)
    (hp : p ∈ splitChar sep s) (hc : c ∈ p) : c ∈ s := by
  induction s generalizing p with
  | nil =>
    simp [splitChar] at hp
    subst hp
    simp at hc
  | cons d s ih =>
    by_cases hd : d = sep
    · subst hd
      rw [splitChar_cons_sep] at hp
      rcases List.mem_cons.1 hp with h1 | h1
      · subst h1; simp at hc
      · exact List.mem_cons_of_mem d (ih p h1 hc)
    · rw [splitChar_cons_of_ne sep d s hd] at hp
      have hne := splitChar_ne_nil sep s
      cases hs : splitChar sep s with
      | nil => exact absurd hs hne
      | cons r rs =>
        rw [hs] at hp
        rcases List.mem_cons.1 hp with h1 | h1
        · subst h1
          rcases List.mem_cons.1 hc with h2 | h2
          · exact h2 ▸ List.mem_cons_self d s
          · exact List.mem_cons_of_mem d
              (ih r (hs ▸ List.mem_cons_self r rs) h2)
        · exact List.mem_cons_of_mem d
            (ih p (hs ▸ List.mem_cons_of_mem r h1) hc)

theorem sep_not_mem_splitChar (sep : Char) (s p : Str)
    (hp : p ∈ splitChar sep s) : sep ∉ p := by
  induction s generalizing p with
  | nil =>
    simp [splitChar] at hp
    subst hp
    simp
  | cons d s ih =>
    by_cases hd : d = sep
    · subst hd
      rw [splitChar_cons_sep] at hp
      rcases List.mem_cons.1 hp with h1 | h1
      · subst h1; simp
      · exact ih p h1
    · rw [splitChar_cons_of_ne sep d s hd] at hp
      have hne := splitChar_ne_nil sep s
      cases hs : splitChar sep s with
      | nil => exact absurd hs hne
      | cons r rs =>
        rw [hs] at hp
        rcases List.mem_cons.1 hp with h1 | h1
        · subst h1
          intro hmem
          rcases List.mem_cons.1 hmem with h2 | h2
          · exact hd h2.symm
          · exact ih r (hs ▸ List.mem_cons_self r rs) h2
        · exact ih p (hs ▸ List.mem_cons_of_mem r h1)

theorem trimLeft_ws_append (w s : Str) (h : AllWs w) :
    trimLeft (w ++ s) = trimLeft s := by
  induction w with
  | nil => rfl
  | cons c w ih =>
    have hc : isWsChar c = true := h c (List.mem_cons_self c w)
    rw [List.cons_append]
    simp only [trimLeft, List.dropWhile_cons, hc, if_pos]
    exact ih (fun x hx => h x (List.mem_cons_of_mem c hx))

theorem trimLeft_eq_nil_iff (s : Str) : trimLeft s = [] ↔ AllWs s :=
  List.dropWhile_eq_nil_iff

theorem trimLeft_append_of_ne_nil (a b : Str) (h : trimLeft a ≠ []) :
    trimLeft (a ++ b) = trimLeft a ++ b := by
  induction a with
  | nil => exact absurd rfl h
  | cons c a ih =>
    cases hc : isWsChar c with
    | true =>
      rw [List.cons_append]
      simp only [trimLeft, List.dropWhile_cons, hc, if_pos] at h ⊢
      exact ih h
    | false =>
      rw [List.cons_append]
      simp only [trimLeft, List.dropWhile_cons, hc]
      simp

theorem trimRight_append_ws (s w : Str) (h : AllWs w) :
    trimRight (s ++ w) = trimRight s := by
  unfold trimRight
  rw [List.reverse_append]
  have h1 := trimLeft_ws_append w.reverse s.reverse
    (fun c hc => h c (List.mem_reverse.1 hc))
  unfold trimLeft at h1
  rw [h1]

theorem trim_ws_append (w s : Str) (h : AllWs w) : trim (w ++ s) = trim s := by
  unfold trim
  rw [trimLeft_ws_append w s h]

theorem trim_append_ws (s w : Str) (h : AllWs w) : trim (s ++ w) = trim s := by
  unfold trim
  by_cases ha : trimLeft s = []
  · have hs : AllWs s := (trimLeft_eq_nil_iff s).1 ha
    have hsw : AllWs (s ++ w) := by
      intro c hc
      rcases List.mem_append.1 hc with h1 | h1
      · exact hs c h1
      · exact h c h1
    rw [ha, (trimLeft_eq_nil_iff _).2 hsw]
  · rw [trimLeft_append_of_ne_nil s w ha, trimRight_append_ws _ _ h]

theorem trimRight_idem (s : Str) : trimRight (trimRight s) = trimRight s := by
  unfold trimRight
  rw [List.reverse_reverse, List.dropWhile_idempotent]

theorem trimLeft_head_not_ws (s : Str) (c : Char) (l : Str)
    (h : trimLeft s = c :: l) : isWsChar c = false := by
  have h1 := List.head?_dropWhile_not isWsChar s
  unfold trimLeft at h
  rw [h] at h1
  simpa using h1

theorem trim_idem (s : Str) : trim (trim s) = trim s := by
  have hpre : trim s <+: trimLeft s := by
    show trimRight (trimLeft s) <+: trimLeft s
    rcases List.dropWhile_suffix (l := (trimLeft s).reverse) isWsChar with ⟨t, ht⟩
    refine ⟨t.reverse, ?_⟩
    unfold trimRight
    have h1 := congrArg List.reverse ht
    rw [List.reverse_append] at h1
    simpa using h1
  have hleft : trimLeft (trim s) = trim s := by
    cases hts : trim s with
    | nil => rfl
    | cons c l =>
      rcases hpre with ⟨t, ht⟩
      rw [hts] at ht
      have hc : isWsChar c = false := by
        cases htl : trimLeft s with
        | nil => rw [htl] at ht; simp at ht
        | cons d m =>
          rw [htl] at ht
          have hd : isWsChar d = false := trimLeft_head_not_ws s d m htl
          have : c = d := by
            have := congrArg (fun x => x.head?) ht
            simpa using this
          rw [this]
          exact hd
      simp only [trimLeft, List.dropWhile_cons, hc]
      simp
  show trimRight (trimLeft (trim s)) = trim s
  rw [hleft]
  show trimRight (trimRight (trimLeft s)) = trim s
  rw [trimRight_idem]
  rfl

theorem trim_eq_nil_iff (s : Str) : trim s = [] ↔ AllWs s := by
  unfold trim trimRight
  constructor
  · intro h
    have h1 : (trimLeft s).reverse.dropWhile isWsChar = [] := by
      have := congrArg List.reverse h
      simpa using this
    have h2 : AllWs (trimLeft s).reverse := List.dropWhile_eq_nil_iff.1 h1
    have h3 : AllWs (trimLeft s) := fun c hc => h2 c (List.mem_reverse.2 hc)
    intro c hc
    rw [← List.takeWhile_append_dropWhile isWsChar s] at hc
    rcases List.mem_append.1 hc with h4 | h4
    · exact List.mem_takeWhile_imp h4
    · exact h3 c h4
  · intro h
    have h1 : trimLeft s = [] := (trimLeft_eq_nil_iff s).2 h
    rw [h1]
    rfl

theorem takeWhile_allWs (s : Str) : AllWs (s.takeWhile isWsChar) :=
  fun _ hc => List.mem_takeWhile_imp hc

theorem trimRight_ws_suffix (s : Str) :
    ∃ w, AllWs w ∧ s = trimRight s ++ w := by
  refine ⟨(s.reverse.takeWhile isWsChar).reverse, ?_, ?_⟩
  · intro c hc
    exact List.mem_takeWhile_imp (List.mem_reverse.1 hc)
  · unfold trimRight
    have := List.takeWhile_append_dropWhile isWsChar s.reverse
    have h2 := congrArg List.reverse this
    rw [List.reverse_append] at h2
    simpa using h2.symm

theorem isWs_comp_lower : (isWsChar ∘ lowerChar) = isWsChar := by
  funext c
  exact isWsChar_lowerChar c

theorem trimLeft_lower (s : Str) : trimLeft (toLowerS s) = toLowerS (trimLeft s) := by
  unfold trimLeft toLowerS
  rw [List.dropWhile_map, isWs_comp_lower]

theorem trimRight_lower (s : Str) :
    trimRight (toLowerS s) = toLowerS (trimRight s) := by
  unfold trimRight toLowerS
  rw [← List.map_reverse, List.dropWhile_map, isWs_comp_lower, List.map_reverse]

theorem trim_lower (s : Str) : trim (toLowerS s) = toLowerS (trim s) := by
  unfold trim
  rw [trimLeft_lower, trimRight_lower]

theorem headD_map_lower (l : List Str) :
    (l.map toLowerS).headD [] = toLowerS (l.headD []) := by
  cases l <;> rfl

theorem splitChar_lower (sep : Char) (s : Str)
    (hsep : ∀ c, lowerChar c = sep ↔ c = sep) :
    splitChar sep (toLowerS s) = (splitChar sep s).map toLowerS := by
  induction s with
  | nil => rfl
  | cons c s ih =>
    by_cases hc : c = sep
    · subst hc
      have hl : lowerChar c = c := (hsep c).2 rfl
      show splitChar c (lowerChar c :: toLowerS s) = _
      rw [hl, splitChar_cons_sep, splitChar_cons_sep]
      simp only [List.map_cons, ih]
      rfl
    · have hl : lowerChar c ≠ sep := fun hx => hc ((hsep c).1 hx)
      show splitChar sep (lowerChar c :: toLowerS s) = _
      rw [splitChar_cons_of_ne sep _ _ hl, splitChar_cons_of_ne sep _ _ hc, ih]
      rw [headD_map_lower]
      simp only [List.map_cons, List.map_tail]
      rfl

theorem toLowerS_idem (s : Str) : toLowerS (toLowerS s) = toLowerS s := by
  unfold toLowerS
  rw [List.map_map]
  apply List.map_congr_left
  intro c _
  exact lowerChar_idem c

theorem toLowerS_eq_nil_iff (s : Str) : toLowerS s = [] ↔ s = [] := by
  unfold toLowerS
  simp

theorem get_taxonomy_components_eq (s : Str) :
    get_taxonomy_components s = segmentCore s := by
  unfold get_taxonomy_components
  by_cases h : s = []
  · rw [if_pos h, h]
    rfl
  · rw [if_neg h]

theorem segmentCore_ws_append (w s : Str) (h : AllWs w) :
    segmentCore (w ++ s) = segmentCore s := by
  have hw : ';' ∉ w := by
    intro hx
    have := h ';' hx
    simp [isWsChar] at this
  unfold segmentCore
  rw [splitChar_append_left ';' w s hw]
  have hne := splitChar_ne_nil ';' s
  cases hs : splitChar ';' s with
  | nil => exact absurd hs hne
  | cons p ps =>
    simp only [List.headD, List.tail, List.map_cons, List.filter_cons]
    rw [trim_ws_append w p h]

theorem segmentCore_append_ws (s w : Str) (h : AllWs w) :
    segmentCore (s ++ w) = segmentCore s := by
  have hw : ';' ∉ w := by
    intro hx
    have := h ';' hx
    simp [isWsChar] at this
  unfold segmentCore
  rw [splitChar_append_right ';' s w hw]
  have hne := splitChar_ne_nil ';' s
  rw [List.map_append, List.filter_append]
  conv_rhs => rw [← List.dropLast_append_getLast hne, List.map_append,
    List.filter_append]
  have hlast : (splitChar ';' s).getLast hne = (splitChar ';' s).getLastD [] := by
    rw [List.getLastD_eq_getLast?, List.getLast?_eq_getLast _ hne]
    rfl
  rw [← hlast]
  congr 1
  simp only [List.map_cons, List.map_nil, List.filter]
  rw [trim_append_ws _ w h]

theorem segmentCore_trim (s : Str) : segmentCore (trim s) = segmentCore s := by
  conv_rhs => rw [← List.takeWhile_append_dropWhile isWsChar s]
  rw [segmentCore_ws_append _ _ (takeWhile_allWs s)]
  show segmentCore (trim s) = segmentCore (trimLeft s)
  rcases trimRight_ws_suffix (trimLeft s) with ⟨w, hw, hdec⟩
  conv_rhs => rw [hdec]
  rw [segmentCore_append_ws _ w hw]
  rfl

theorem segmentCore_nil : segmentCore [] = [] := by rfl

theorem segmentCore_ne_nil_trim (s : Str) (h : segmentCore s ≠ []) :
    trim s ≠ [] := by
  intro htrim
  apply h
  have hws : AllWs s := (trim_eq_nil_iff s).1 htrim
  unfold segmentCore
  rw [List.filter_eq_nil_iff]
  intro p hp
  rcases List.mem_map.1 hp with ⟨q, hq, hpq⟩
  have hqws : AllWs q := fun c hc =>
    hws c (mem_of_mem_splitChar ';' s q c hq hc)
  have hq0 : trim q = [] := (trim_eq_nil_iff q).2 hqws
  rw [← hpq, hq0]
  simp

theorem segmentCore_lower (s : Str) :
    segmentCore (toLowerS s) = (segmentCore s).map toLowerS := by
  unfold segmentCore
  rw [splitChar_lower ';' s lowerChar_semi, List.map_map]
  have hcomm : (trim ∘ toLowerS) = (toLowerS ∘ trim) := by
    funext x
    exact trim_lower x
  rw [hcomm, ← List.map_map, List.filter_map]
  congr 1
  apply List.filter_congr
  intro p _
  exact decide_eq_decide.2 (not_congr (toLowerS_eq_nil_iff p))

theorem mem_segmentCore_trimmed (s p : Str) (hp : p ∈ segmentCore s) :
    trim p = p ∧ p ≠ [] ∧ ';' ∉ p := by
  unfold segmentCore at hp
  rcases List.mem_filter.1 hp with ⟨hp1, hp2⟩
  rcases List.mem_map.1 hp1 with ⟨q, hq, hpq⟩
  refine ⟨?_, ?_, ?_⟩
  · rw [← hpq, trim_idem]
  · simpa using hp2
  · intro hmem
    apply sep_not_mem_splitChar ';' s q hq
    rw [← hpq] at hmem
    have hsub : trim q <:+: q := by
      rcases trimRight_ws_suffix (trimLeft q) with ⟨w, _, hdec⟩
      refine ⟨q.takeWhile isWsChar, w, ?_⟩
      show List.takeWhile isWsChar q ++ trim q ++ w = q
      have htq : trim q = trimRight (trimLeft q) := rfl
      rw [htq, List.append_assoc, ← hdec]
      exact List.takeWhile_append_dropWhile isWsChar q
    exact hsub.subset hmem

theorem segmentCore_join (ps : List Str) (h : ∀ p ∈ ps, ';' ∉ p) :
    segmentCore (joinChar ';' ps) = (ps.map trim).filter (fun p => p ≠ []) := by
  cases hps : ps with
  | nil => rfl
  | cons q qs =>
    unfold segmentCore
    rw [splitChar_join ';' (q :: qs) (by simp) (hps ▸ h)]

/-- Idempotence: re-segmenting the join of a segmentation output is the
identity. -/
theorem segmentCore_join_self (s : Str) :
    segmentCore (joinChar ';' (segmentCore s)) = segmentCore s := by
  rw [segmentCore_join _ (fun p hp => (mem_segmentCore_trimmed s p hp).2.2)]
  have h1 : (segmentCore s).map trim = segmentCore s := by
    have h2 : (segmentCore s).map trim = (segmentCore s).map id := by
      apply List.map_congr_left
      intro p hp
      rw [(mem_segmentCore_trimmed s p hp).1]
      rfl
    rw [h2, List.map_id]
  rw [h1]
  apply List.filter_eq_self.2
  intro p hp
  simpa using (mem_segmentCore_trimmed s p hp).2.1

theorem memStr_iff (x : Str) (l : List Str) : memStr x l = true ↔ x ∈ l := by
  induction l with
  | nil => simp [memStr]
  | cons y ys ih =>
    simp only [memStr, Bool.or_eq_true, decide_eq_true_eq, ih, List.mem_cons]

theorem hasDunder_lower (p : Str) : hasDunder (toLowerS p) = hasDunder p := by
  induction p with
  | nil => rfl
  | cons c q ih =>
    cases q with
    | nil => rfl
    | cons d r =>
      show hasDunder (lowerChar c :: lowerChar d :: toLowerS r) = _
      have hstep : hasDunder (lowerChar c :: lowerChar d :: toLowerS r) =
          ((lowerChar c = '_' && lowerChar d = '_') ||
            hasDunder (lowerChar d :: toLowerS r)) := rfl
      have hstep2 : hasDunder (c :: d :: r) =
          ((c = '_' && d = '_') || hasDunder (d :: r)) := rfl
      rw [hstep, hstep2]
      have h1 : (decide (lowerChar c = '_')) = decide (c = '_') :=
        decide_eq_decide.2 (lowerChar_underscore c)
      have h2 : (decide (lowerChar d = '_')) = decide (d = '_') :=
        decide_eq_decide.2 (lowerChar_underscore d)
      have h3 : hasDunder (lowerChar d :: toLowerS r) = hasDunder (d :: r) := by
        have : (lowerChar d :: toLowerS r) = toLowerS (d :: r) := rfl
        rw [this, ih]
      rw [h1, h2, h3]

theorem afterDunder_lower (p : Str) :
    afterDunder (toLowerS p) = toLowerS (afterDunder p) := by
  induction p with
  | nil => rfl
  | cons c q ih =>
    cases q with
    | nil => rfl
    | cons d r =>
      show afterDunder (lowerChar c :: lowerChar d :: toLowerS r) = _
      have h1 : (decide (lowerChar c = '_')) = decide (c = '_') :=
        decide_eq_decide.2 (lowerChar_underscore c)
      have h2 : (decide (lowerChar d = '_')) = decide (d = '_') :=
        decide_eq_decide.2 (lowerChar_underscore d)
      by_cases hc : (c = '_' && d = '_') = true
      · have hc' : (lowerChar c = '_' && lowerChar d = '_') = true := by
          rw [Bool.and_eq_true] at hc ⊢
          constructor
          · rw [h1]; exact hc.1
          · rw [h2]; exact hc.2
        show (if (lowerChar c = '_' && lowerChar d = '_') = true
          then toLowerS r else afterDunder (lowerChar d :: toLowerS r)) = _
        rw [if_pos hc']
        show _ = (if (c = '_' && d = '_') = true then r else afterDunder (d :: r)).map lowerChar
        rw [if_pos hc]
        rfl
      · have hc' : ¬ (lowerChar c = '_' && lowerChar d = '_') = true := by
          intro hx
          apply hc
          rw [Bool.and_eq_true] at hx ⊢
          constructor
          · rw [← h1]; exact hx.1
          · rw [← h2]; exact hx.2
        show (if (lowerChar c = '_' && lowerChar d = '_') = true
          then toLowerS r else afterDunder (lowerChar d :: toLowerS r)) = _
        rw [if_neg hc']
        show _ = (if (c = '_' && d = '_') = true then r else afterDunder (d :: r)).map lowerChar
        rw [if_neg hc]
        have : (lowerChar d :: toLowerS r) = toLowerS (d :: r) := rfl
        rw [this, ih]
        rfl

theorem stripRankPfx_lower (p : Str) :
    stripRankPfx (toLowerS p) = toLowerS (stripRankPfx p) := by
  unfold stripRankPfx
  rw [hasDunder_lower]
  by_cases h : hasDunder p = true
  · rw [if_pos h, if_pos h, afterDunder_lower]
  · rw [if_neg h, if_neg h]

theorem pathLoop_eq_true_iff (f g : Str → Str) (qcs tcs : List Str)
    (h : qcs.length ≤ tcs.length) :
    pathLoop (qcs.map f) (qcs.map g) (tcs.map f) (tcs.map g) = true ↔
      (∀ i qc tc, qcs.get? i = some qc → tcs.get? i = some tc →
        (if hasDunder (f qc) then f qc = f tc else g qc = g tc)) := by
  induction qcs generalizing tcs with
  | nil =>
    simp only [List.map_nil, pathLoop]
    constructor
    · intro _ i qc tc hq _
      simp at hq
    · intro _
      trivial
  | cons q qs ih =>
    cases tcs with
    | nil => simp at h
    | cons t ts =>
      simp only [List.map_cons]
      show ((if hasDunder (f q) then decide (f q = f t) else decide (g q = g t)) &&
        pathLoop (qs.map f) (qs.map g) (ts.map f) (ts.map g)) = true ↔ _
      rw [Bool.and_eq_true]
      have hlen : qs.length ≤ ts.length := by
        simp only [List.length_cons] at h
        omega
      rw [ih ts hlen]
      constructor
      · rintro ⟨h1, h2⟩ i qc tc hq htc
        cases i with
        | zero =>
          have hq0 : q = qc := by
            simp only [List.get?] at hq
            injection hq
          have ht0 : t = tc := by
            simp only [List.get?] at htc
            injection htc
          subst hq0
          subst ht0
          by_cases hd : hasDunder (f q) = true
          · rw [if_pos hd] at h1 ⊢
            exact of_decide_eq_true h1
          · rw [if_neg hd] at h1 ⊢
            exact of_decide_eq_true h1
        | succ n =>
          exact h2 n qc tc hq htc
      · intro hall
        constructor
        · have h0 := hall 0 q t rfl rfl
          by_cases hd : hasDunder (f q) = true
          · rw [if_pos hd] at h0 ⊢
            exact decide_eq_true h0
          · rw [if_neg hd] at h0 ⊢
            exact decide_eq_true h0
        · intro i qc tc hq htc
          exact hall (i + 1) qc tc hq htc

theorem matchesCore_path_iff (qcs tcs : List Str) (h : 1 < qcs.length) :
    matchesCore qcs tcs = some true ↔
      (qcs.length ≤ tcs.length ∧
        ∀ i qc tc, qcs.get? i = some qc → tcs.get? i = some tc →
          (if hasDunder qc then toLowerS qc = toLowerS tc
           else toLowerS (stripRankPfx qc) = toLowerS (stripRankPfx tc))) := by
  unfold matchesCore
  simp only [List.length_map]
  rw [if_pos h]
  by_cases hlt : tcs.length < qcs.length
  · rw [if_pos hlt]
    constructor
    · intro hx
      injection hx with hx
      exact absurd hx (by simp)
    · rintro ⟨h1, _⟩
      omega
  · rw [if_neg hlt]
    rw [Option.some_inj]
    rw [pathLoop_eq_true_iff toLowerS (fun p => toLowerS (stripRankPfx p))
      qcs tcs (by omega)]
    simp only [hasDunder_lower]
    constructor
    · intro hp
      exact ⟨by omega, hp⟩
    · rintro ⟨_, hp⟩
      exact hp

theorem matchesCore_bare_iff (qc : Str) (tcs : List Str) :
    matchesCore [qc] tcs = some true ↔
      ∃ tc ∈ tcs, (if hasDunder qc then toLowerS qc = toLowerS tc
        else toLowerS (stripRankPfx qc) = toLowerS (stripRankPfx tc)) := by
  unfold matchesCore
  simp only [List.map_cons, List.map_nil, List.length_cons, List.length_nil]
  rw [if_neg (by omega)]
  show some (if hasDunder (toLowerS qc) then memStr (toLowerS qc) (tcs.map toLowerS)
    else memStr (toLowerS (stripRankPfx qc))
      (tcs.map (fun p => toLowerS (stripRankPfx p)))) = some true ↔ _
  rw [Option.some_inj, hasDunder_lower]
  by_cases hd : hasDunder qc = true
  · rw [if_pos hd, memStr_iff]
    constructor
    · intro hmem
      rcases List.mem_map.1 hmem with ⟨tc, htc, heq⟩
      refine ⟨tc, htc, ?_⟩
      rw [if_pos hd]
      exact heq.symm
    · rintro ⟨tc, htc, hcond⟩
      rw [if_pos hd] at hcond
      exact List.mem_map.2 ⟨tc, htc, hcond.symm⟩
  · rw [if_neg hd, memStr_iff]
    constructor
    · intro hmem
      rcases List.mem_map.1 hmem with ⟨tc, htc, heq⟩
      refine ⟨tc, htc, ?_⟩
      rw [if_neg hd]
      exact heq.symm
    · rintro ⟨tc, htc, hcond⟩
      rw [if_neg hd] at hcond
      exact List.mem_map.2 ⟨tc, htc, hcond.symm⟩

theorem matchesCore_nil_right (qcs : List Str) (h : qcs ≠ []) :
    matchesCore qcs [] = some false := by
  unfold matchesCore
  simp only [List.length_map, List.map_nil, List.length_nil]
  cases qcs with
  | nil => exact absurd rfl h
  | cons q qs =>
    cases qs with
    | nil =>
      rw [if_neg (by simp)]
      show some (if hasDunder (toLowerS q) then memStr (toLowerS q) []
        else memStr (toLowerS (stripRankPfx q)) []) = some false
      by_cases hd : hasDunder (toLowerS q) = true
      · rw [if_pos hd]
        rfl
      · rw [if_neg hd]
        rfl
    | cons q2 qs2 =>
      rw [if_pos (by simp only [List.length_cons]; omega),
        if_pos (by simp only [List.length_cons]; omega)]

/-- Claim C1: a path query (a query segmenting into more than one
component) matches a taxonomy string exactly when the taxonomy has at
least as many components as the query and every query component at
position i, counted from the root, agrees with the taxonomy component at
position i: verbatim case-insensitive equality when the query component
contains a rank separator `__`, case-insensitive bare-name equality
otherwise.  In particular the matching is anchored at the leftmost rank
and never matches a shorter taxonomy. -/
theorem claim1_path_query_matching (q t : Str)
    (h : 1 < (segmentCore q).length) :
    matchesQT q t = some true ↔
      ((segmentCore q).length ≤ (get_taxonomy_components t).length ∧
        ∀ i qc tc, (segmentCore q).get? i = some qc →
          (get_taxonomy_components t).get? i = some tc →
          (if hasDunder qc then toLowerS qc = toLowerS tc
           else toLowerS (stripRankPfx qc) = toLowerS (stripRankPfx tc))) := by
  have hq0 : segmentCore q ≠ [] := by
    intro hx
    rw [hx] at h
    simp at h
  have htrim : trim q ≠ [] := segmentCore_ne_nil_trim q hq0
  unfold matchesQT
  rw [get_taxonomy_components_eq, if_neg htrim, segmentCore_trim]
  by_cases ht : t = []
  · rw [if_pos ht]
    subst ht
    rw [segmentCore_nil]
    constructor
    · intro hx
      injection hx with hx
      exact absurd hx (by simp)
    · rintro ⟨h1, _⟩
      rw [List.length_nil] at h1
      omega
  · rw [if_neg ht]
    exact matchesCore_path_iff (segmentCore q) (segmentCore t) h

/-- Witness for C1: the path query matches a longer taxonomy differing in
case, and the characterisation is exercised at that input. -/
theorem claim1_witness :
    matchesQT (toStr "d__Bacteria;p__Bacillota")
        (toStr "d__bacteria;p__bacillota;c__Bacilli") = some true ↔
      ((segmentCore (toStr "d__Bacteria;p__Bacillota")).length ≤
          (get_taxonomy_components
            (toStr "d__bacteria;p__bacillota;c__Bacilli")).length ∧
        ∀ i qc tc,
          (segmentCore (toStr "d__Bacteria;p__Bacillota")).get? i = some qc →
          (get_taxonomy_components
            (toStr "d__bacteria;p__bacillota;c__Bacilli")).get? i = some tc →
          (if hasDunder qc then toLowerS qc = toLowerS tc
           else toLowerS (stripRankPfx qc) = toLowerS (stripRankPfx tc))) :=
  claim1_path_query_matching (toStr "d__Bacteria;p__Bacillota")
    (toStr "d__bacteria;p__bacillota;c__Bacilli") (by decide)

/-- Claim C2: a bare query (exactly one component) matches exactly when
that component equals one of the taxonomy's components, with the
prefix-presence rule: verbatim case-insensitive equality when the query
component contains `__`, case-insensitive bare-name equality otherwise.
No substring matching occurs: `Bacill` does not match a taxonomy
containing `p__Bacillota`, while `Bacillota` does. -/
theorem claim2_bare_query_matching :
    (∀ q t qc, segmentCore q = [qc] →
      (matchesQT q t = some true ↔
        ∃ tc ∈ get_taxonomy_components t,
          (if hasDunder qc then toLowerS qc = toLowerS tc
           else toLowerS (stripRankPfx qc) = toLowerS (stripRankPfx tc)))) ∧
    matchesQT (toStr "Bacill") (toStr "d__Bacteria;p__Bacillota") = some false ∧
    matchesQT (toStr "Bacillota") (toStr "d__Bacteria;p__Bacillota") =
      some true := by
  refine ⟨?_, by decide, by decide⟩
  intro q t qc hseg
  have hq0 : segmentCore q ≠ [] := by
    rw [hseg]
    simp
  have htrim : trim q ≠ [] := segmentCore_ne_nil_trim q hq0
  unfold matchesQT
  rw [get_taxonomy_components_eq, if_neg htrim, segmentCore_trim, hseg]
  by_cases ht : t = []
  · rw [if_pos ht]
    subst ht
    rw [segmentCore_nil]
    constructor
    · intro hx
      injection hx with hx
      exact absurd hx (by simp)
    · rintro ⟨tc, htc, _⟩
      simp at htc
  · rw [if_neg ht]
    exact matchesCore_bare_iff qc (segmentCore t)

/-- Witness for C2: the bare-query characterisation applied at the
query `Bacillota`. -/
theorem claim2_witness :
    matchesQT (toStr "Bacillota") (toStr "d__Bacteria;p__Bacillota") =
        some true ↔
      ∃ tc ∈ get_taxonomy_components (toStr "d__Bacteria;p__Bacillota"),
        (if hasDunder (toStr "Bacillota")
         then toLowerS (toStr "Bacillota") = toLowerS tc
         else toLowerS (stripRankPfx (toStr "Bacillota")) =
           toLowerS (stripRankPfx tc)) :=
  claim2_bare_query_matching.1 (toStr "Bacillota")
    (toStr "d__Bacteria;p__Bacillota") (toStr "Bacillota") (by decide)

theorem map_lower_lower (l : List Str) :
    (l.map toLowerS).map toLowerS = l.map toLowerS := by
  rw [List.map_map]
  apply List.map_congr_left
  intro p _
  exact toLowerS_idem p

theorem map_names_lower (l : List Str) :
    (l.map toLowerS).map (fun p => toLowerS (stripRankPfx p)) =
      l.map (fun p => toLowerS (stripRankPfx p)) := by
  rw [List.map_map]
  apply List.map_congr_left
  intro p _
  show toLowerS (stripRankPfx (toLowerS p)) = toLowerS (stripRankPfx p)
  rw [stripRankPfx_lower, toLowerS_idem]

theorem matchesCore_lower (qcs tcs : List Str) :
    matchesCore (qcs.map toLowerS) (tcs.map toLowerS) = matchesCore qcs tcs := by
  unfold matchesCore
  simp only [map_lower_lower, map_names_lower]

theorem matchesQT_lower (q t : Str) :
    matchesQT (toLowerS q) (toLowerS t) = matchesQT q t := by
  unfold matchesQT
  have h1 : trim (toLowerS q) = [] ↔ trim q = [] := by
    rw [trim_lower]
    exact toLowerS_eq_nil_iff (trim q)
  have h2 : toLowerS t = [] ↔ t = [] := toLowerS_eq_nil_iff t
  by_cases hq : trim q = []
  · rw [if_pos hq, if_pos (h1.2 hq)]
  · rw [if_neg hq, if_neg (fun hx => hq (h1.1 hx))]
    by_cases ht : t = []
    · rw [if_pos ht, if_pos (h2.2 ht)]
    · rw [if_neg ht, if_neg (fun hx => ht (h2.1 hx))]
      rw [trim_lower, segmentCore_lower, get_taxonomy_components_eq,
        get_taxonomy_components_eq, segmentCore_lower]
      exact matchesCore_lower _ _

theorem matchesQT_congr (q1 t1 q2 t2 : Str)
    (hq : segmentCore q1 = segmentCore q2)
    (ht : segmentCore t1 = segmentCore t2)
    (hne : segmentCore q1 ≠ []) :
    matchesQT q1 t1 = matchesQT q2 t2 := by
  have hne2 : segmentCore q2 ≠ [] := hq ▸ hne
  have hq1 : trim q1 ≠ [] := segmentCore_ne_nil_trim q1 hne
  have hq2 : trim q2 ≠ [] := segmentCore_ne_nil_trim q2 hne2
  unfold matchesQT
  rw [if_neg hq1, if_neg hq2, get_taxonomy_components_eq,
    get_taxonomy_components_eq, segmentCore_trim, segmentCore_trim, hq, ht]
  by_cases h1 : t1 = []
  · rw [if_pos h1]
    by_cases h2 : t2 = []
    · rw [if_pos h2]
    · rw [if_neg h2]
      have hseg : segmentCore t2 = [] := by
        rw [← ht, h1]
        rfl
      rw [hseg, matchesCore_nil_right _ hne2]
  · rw [if_neg h1]
    by_cases h2 : t2 = []
    · rw [if_pos h2]
      have hseg : segmentCore t2 = [] := by
        rw [h2]
        rfl
      rw [hseg, matchesCore_nil_right _ hne2]
    · rw [if_neg h2]

theorem map_trim_pads (ps ps' : List Str) (hpad : List.Forall₂ PadOf ps ps') :
    ps'.map trim = ps.map trim := by
  induction hpad with
  | nil => rfl
  | cons h _ ih =>
    rcases h with ⟨w1, w2, hw1, hw2, heq⟩
    simp only [List.map_cons, ih]
    congr 1
    rw [heq, trim_append_ws _ w2 hw2, trim_ws_append w1 _ hw1]

theorem pads_no_semi (ps ps' : List Str) (hpad : List.Forall₂ PadOf ps ps') :
    (∀ p ∈ ps, ';' ∉ p) → ∀ p ∈ ps', ';' ∉ p := by
  induction hpad with
  | nil =>
    intro _ p hp
    simp at hp
  | @cons a b l1 l2 h htail ih =>
    intro hsemi p hp
    rcases List.mem_cons.1 hp with h1 | h1
    · subst h1
      rcases h with ⟨w1, w2, hw1, hw2, heq⟩
      rw [heq]
      intro hmem
      rcases List.mem_append.1 hmem with h2 | h2
      · rcases List.mem_append.1 h2 with h3 | h3
        · have hx := hw1 ';' h3
          simp [isWsChar] at hx
        · exact hsemi a (List.mem_cons_self a l1) h3
      · have hx := hw2 ';' h2
        simp [isWsChar] at hx
    · exact ih (fun x hx => hsemi x (List.mem_cons_of_mem a hx)) p h1

theorem segmentCore_join_pads (ps ps' : List Str)
    (hpad : List.Forall₂ PadOf ps ps') (hsemi : ∀ p ∈ ps, ';' ∉ p) :
    segmentCore (joinChar ';' ps') = segmentCore (joinChar ';' ps) := by
  rw [segmentCore_join ps' (pads_no_semi ps ps' hpad hsemi),
    segmentCore_join ps hsemi, map_trim_pads ps ps' hpad]

/-- Claim C5: matching is case-insensitive —
`matches(q, t) = matches(q.lower(), t.lower())` for all strings — and
leading/trailing whitespace on the query and taxonomy components is
insignificant: padding any component of a (non-degenerate) query and any
component of the taxonomy with whitespace leaves the outcome unchanged. -/
theorem claim5_case_and_ws_insensitive :
    (∀ q t, matchesQT (toLowerS q) (toLowerS t) = matchesQT q t) ∧
    (∀ qs qs' ts ts', List.Forall₂ PadOf qs qs' → List.Forall₂ PadOf ts ts' →
      (∀ p ∈ qs, ';' ∉ p) → (∀ p ∈ ts, ';' ∉ p) →
      segmentCore (joinChar ';' qs) ≠ [] →
      matchesQT (joinChar ';' qs') (joinChar ';' ts') =
        matchesQT (joinChar ';' qs) (joinChar ';' ts)) := by
  constructor
  · exact matchesQT_lower
  · intro qs qs' ts ts' hpq hpt hsq hst hne
    have hq : segmentCore (joinChar ';' qs') = segmentCore (joinChar ';' qs) :=
      segmentCore_join_pads qs qs' hpq hsq
    have ht : segmentCore (joinChar ';' ts') = segmentCore (joinChar ';' ts) :=
      segmentCore_join_pads ts ts' hpt hst
    exact matchesQT_congr _ _ _ _ hq ht (hq.symm ▸ hne)

/-- Witness for C5: whitespace padding of individual components does not
change the match outcome at a concrete query/taxonomy pair. -/
theorem claim5_witness :
    matchesQT (joinChar ';' [toStr "d__Bacteria ", toStr " p__Bacillota"])
        (joinChar ';' [toStr " d__Bacteria", toStr "p__Bacillota "]) =
      matchesQT (joinChar ';' [toStr "d__Bacteria", toStr "p__Bacillota"])
        (joinChar ';' [toStr "d__Bacteria", toStr "p__Bacillota"]) :=
  claim5_case_and_ws_insensitive.2
    [toStr "d__Bacteria", toStr "p__Bacillota"]
    [toStr "d__Bacteria ", toStr " p__Bacillota"]
    [toStr "d__Bacteria", toStr "p__Bacillota"]
    [toStr " d__Bacteria", toStr "p__Bacillota "]
    (List.Forall₂.cons ⟨toStr "", toStr " ", by decide, by decide, by decide⟩
      (List.Forall₂.cons ⟨toStr " ", toStr "", by decide, by decide, by decide⟩
        List.Forall₂.nil))
    (List.Forall₂.cons ⟨toStr " ", toStr "", by decide, by decide, by decide⟩
      (List.Forall₂.cons ⟨toStr "", toStr " ", by decide, by decide, by decide⟩
        List.Forall₂.nil))
    (by decide) (by decide) (by decide)

/-- Claim C9: `get_taxonomy_components` splits on ';', trims whitespace
from each component and drops empty components; applied to an empty or
whitespace-only string it yields the empty sequence; and re-segmenting
the ';'-join of its output yields the same component sequence
(idempotence). -/
theorem claim9_segment_behaviour :
    (∀ s, get_taxonomy_components s =
      ((splitChar ';' s).map trim).filter (fun p => p ≠ [])) ∧
    (∀ s, AllWs s → get_taxonomy_components s = []) ∧
    (∀ s, get_taxonomy_components (joinChar ';' (get_taxonomy_components s)) =
      get_taxonomy_components s) := by
  refine ⟨?_, ?_, ?_⟩
  · intro s
    rw [get_taxonomy_components_eq]
    rfl
  · intro s hws
    rw [get_taxonomy_components_eq]
    have h1 : trim s = [] := (trim_eq_nil_iff s).2 hws
    have h2 := segmentCore_trim s
    rw [← h2, h1]
    rfl
  · intro s
    rw [get_taxonomy_components_eq, get_taxonomy_components_eq,
      segmentCore_join_self]

/-- Witness for C9 at a whitespace-only string. -/
theorem claim9_witness :
    AllWs (toStr "  ") ∧ get_taxonomy_components (toStr "  ") = [] :=
  ⟨by decide, claim9_segment_behaviour.2.1 (toStr "  ") (by decide)⟩

theorem matchesQT_nil_tax (q : Str) : matchesQT q [] = some false := by
  unfold matchesQT
  by_cases h : trim q = []
  · rw [if_pos h]
  · rw [if_neg h, if_pos rfl]

theorem gLoop_mem (taxon field : Str) (data : List (Str × Row))
    (res : List Str) (h : gLoop taxon field data = Except.ok res) (x : Str)
    (hx : x ∈ res) :
    ∃ row, (x, row) ∈ data ∧
      matchesQT taxon ((rowGet row field).getD []) = some true := by
  induction data generalizing res with
  | nil =>
    simp only [gLoop] at h
    injection h with h
    subst h
    simp at hx
  | cons e rest ih =>
    obtain ⟨gid, row⟩ := e
    simp only [gLoop] at h
    cases hm : matchesQT taxon ((rowGet row field).getD []) with
    | none =>
      rw [hm] at h
      exact absurd h (by simp)
    | some b =>
      rw [hm] at h
      cases b with
      | true =>
        cases hr : gLoop taxon field rest with
        | error e =>
          rw [hr] at h
          simp [Except.map] at h
        | ok l =>
          rw [hr] at h
          simp only [Except.map] at h
          injection h with h
          subst h
          rcases List.mem_cons.1 hx with h1 | h1
          · subst h1
            exact ⟨row, List.mem_cons_self _ _, hm⟩
          · rcases ih l hr h1 with ⟨row', hmem, hmatch⟩
            exact ⟨row', List.mem_cons_of_mem _ hmem, hmatch⟩
      | false =>
        rcases ih res h hx with ⟨row', hmem, hmatch⟩
        exact ⟨row', List.mem_cons_of_mem _ hmem, hmatch⟩

theorem keys_nodup_eq (data : List (Str × Row))
    (hnd : (data.map Prod.fst).Nodup) (gid : Str) (r1 r2 : Row)
    (h1 : (gid, r1) ∈ data) (h2 : (gid, r2) ∈ data) : r1 = r2 := by
  induction data with
  | nil => simp at h1
  | cons e rest ih =>
    obtain ⟨k, r⟩ := e
    simp only [List.map_cons, List.nodup_cons] at hnd
    rcases List.mem_cons.1 h1 with ha | ha
    · rcases List.mem_cons.1 h2 with hb | hb
      · have e1 : r1 = r := congrArg Prod.snd ha
        have e2 : r2 = r := congrArg Prod.snd hb
        rw [e1, e2]
      · exfalso
        have hk : gid = k := congrArg Prod.fst ha
        apply hnd.1
        subst hk
        exact List.mem_map.2 ⟨(gid, r2), hb, rfl⟩
    · rcases List.mem_cons.1 h2 with hb | hb
      · exfalso
        have hk : gid = k := congrArg Prod.fst hb
        apply hnd.1
        subst hk
        exact List.mem_map.2 ⟨(gid, r1), ha, rfl⟩
      · exact ih hnd.2 ha hb

theorem gLoop_all_empty (taxon field : Str) (data : List (Str × Row))
    (h : ∀ e ∈ data, (rowGet e.2 field).getD [] = []) :
    gLoop taxon field data = Except.ok [] := by
  induction data with
  | nil => rfl
  | cons e rest ih =>
    obtain ⟨gid, row⟩ := e
    simp only [gLoop]
    have h0 : (rowGet row field).getD [] = [] :=
      h (gid, row) (List.mem_cons_self _ _)
    rw [h0, matchesQT_nil_tax]
    exact ih (fun x hx => h x (List.mem_cons_of_mem _ hx))

/-- Claim C10 (implicit): for every query, a catalog record whose taxonomy
field is absent or empty is never included in the result of the taxon
match; such rows are skipped before any comparison, so a catalog whose
rows all lack a taxonomy value yields the empty result without error for
every query, including degenerate ones. -/
theorem claim10_empty_taxonomy_skipped :
    (∀ data taxon field gid row res,
      (data.map Prod.fst).Nodup →
      (gid, row) ∈ data →
      (rowGet row field).getD [] = [] →
      get_genomes_by_taxon data taxon field = Except.ok res →
      gid ∉ res) ∧
    (∀ data taxon field,
      (∀ e ∈ data, (rowGet e.2 field).getD [] = []) →
      get_genomes_by_taxon data taxon field = Except.ok []) := by
  constructor
  · intro data taxon field gid row res hnd hmem hempty hok hx
    unfold get_genomes_by_taxon at hok
    by_cases htr : trim taxon = []
    · rw [if_pos htr] at hok
      injection hok with hok
      subst hok
      simp at hx
    · rw [if_neg htr] at hok
      rcases gLoop_mem taxon field data res hok gid hx with ⟨row', hmem', hmatch⟩
      have hrr : row' = row := keys_nodup_eq data hnd gid row' row hmem' hmem
      rw [hrr, hempty, matchesQT_nil_tax] at hmatch
      injection hmatch with hmatch
      exact absurd hmatch (by simp)
  · intro data taxon field h
    unfold get_genomes_by_taxon
    by_cases htr : trim taxon = []
    · rw [if_pos htr]
    · rw [if_neg htr]
      exact gLoop_all_empty taxon field data h

/-- Witness for C10: a record with an empty taxonomy value is not in the
result while a matching record is. -/
theorem claim10_witness : toStr "G1" ∉ [toStr "G2"] :=
  claim10_empty_taxonomy_skipped.1
    [(toStr "G1", [(toStr "gtdb_taxonomy", toStr "")]),
     (toStr "G2", [(toStr "gtdb_taxonomy", toStr "d__Bacteria")])]
    (toStr "Bacteria") (toStr "gtdb_taxonomy")
    (toStr "G1") [(toStr "gtdb_taxonomy", toStr "")] [toStr "G2"]
    (by decide) (by decide) (by decide) (by rfl)

theorem load_fold_skip (rs : List Row) :
    ∀ acc, (∀ row ∈ rs, rowIdentifier row = none) →
      rs.foldl (fun data row =>
        match rowIdentifier row with
        | some gid => dictInsert data gid row
        | none => data) acc = acc := by
  induction rs with
  | nil =>
    intro acc _
    rfl
  | cons r rest ih =>
    intro acc h
    simp only [List.foldl_cons]
    rw [h r (List.mem_cons_self _ _)]
    exact ih acc (fun x hx => h x (List.mem_cons_of_mem _ hx))

/-- Claim C4 counterexample: a parsable table whose single row has
neither an `accession` nor a `Genome` value is loaded into the empty
mapping with no error raised — the load does not fail. -/
theorem claim4_counterexample :
    (∀ row ∈ [[(toStr "name", toStr "x"), (toStr "tax", toStr "d__Bacteria")]],
      rowIdentifier row = none) ∧
    _load_rows [[(toStr "name", toStr "x"),
      (toStr "tax", toStr "d__Bacteria")]] = Except.ok [] := by
  constructor
  · decide
  · rfl

/-- Claim C4 (amended): for every input table whose rows have no
recognizable accession value (neither a non-empty `accession` nor a
non-empty `Genome` field), catalog load succeeds and returns the empty
mapping; no error is raised at load time. -/
theorem claim4_amended (rows : List Row)
    (h : ∀ row ∈ rows, rowIdentifier row = none) :
    _load_rows rows = Except.ok [] := by
  unfold _load_rows
  rw [load_fold_skip rows [] h]

/-- Witness for the amended C4. -/
theorem claim4_witness :
    _load_rows [[(toStr "name", toStr "x")]] = Except.ok [] :=
  claim4_amended [[(toStr "name", toStr "x")]] (by decide)

/-- Claim C6: representative detection is source-prefix-insensitive.
When the row's own accession and its representative field normalize (by
stripping an `RS_`/`GB_` source tag) to the same non-empty accession —
in particular when they differ only by such a leading tag, as in
accession `RS_GCF_000001.1` with representative field `GCF_000001.1` —
`is_species_cluster_representative` returns true. -/
theorem claim6_rep_detection (data : List (Str × Row)) (gid : Str)
    (row : Row) (a r : Str)
    (hrow : lookupRow data gid = some row)
    (ha : accessionOrGenome row = some a)
    (hr : rowGet row (toStr "gtdb_genome_representative") = some r)
    (heq : _normalize_accession (some a) = _normalize_accession (some r))
    (hne : _normalize_accession (some a) ≠ []) :
    is_species_cluster_representative data gid = true := by
  have hrownil : row ≠ [] := by
    intro hx
    subst hx
    simp [accessionOrGenome, rowGet] at ha
  unfold is_species_cluster_representative
  rw [hrow]
  show (if row = [] then false
    else if markerTruthy row then true
    else
      match get_species_cluster_representative data gid with
      | some rep =>
        _normalize_accession (accessionOrGenome row) ≠ [] && rep ≠ [] &&
          decide (_normalize_accession (accessionOrGenome row) = rep)
      | none => false) = true
  rw [if_neg hrownil]
  by_cases hm : markerTruthy row = true
  · rw [if_pos hm]
  · rw [if_neg hm]
    have hner : _normalize_accession (some r) ≠ [] := heq ▸ hne
    have hrep : get_species_cluster_representative data gid =
        some (_normalize_accession (some r)) := by
      unfold get_species_cluster_representative
      rw [hrow]
      show (if row = [] then none
        else firstRepField row
          [toStr "gtdb_genome_representative",
           toStr "species_cluster_representative",
           toStr "gtdb_species_representative"]) = _
      rw [if_neg hrownil]
      unfold firstRepField
      rw [hr]
      rw [if_pos hner]
    rw [hrep]
    show (_normalize_accession (accessionOrGenome row) ≠ [] &&
      _normalize_accession (some r) ≠ [] &&
      decide (_normalize_accession (accessionOrGenome row) =
        _normalize_accession (some r))) = true
    rw [ha, ← heq]
    simp [hne]

/-- Witness for C6: the prefix-differing pair from the claim. -/
theorem claim6_witness :
    is_species_cluster_representative
      [(toStr "RS_GCF_000001.1",
        [(toStr "accession", toStr "RS_GCF_000001.1"),
         (toStr "gtdb_genome_representative", toStr "GCF_000001.1")])]
      (toStr "RS_GCF_000001.1") = true :=
  claim6_rep_detection
    [(toStr "RS_GCF_000001.1",
      [(toStr "accession", toStr "RS_GCF_000001.1"),
       (toStr "gtdb_genome_representative", toStr "GCF_000001.1")])]
    (toStr "RS_GCF_000001.1")
    [(toStr "accession", toStr "RS_GCF_000001.1"),
     (toStr "gtdb_genome_representative", toStr "GCF_000001.1")]
    (toStr "RS_GCF_000001.1") (toStr "GCF_000001.1")
    (by rfl) (by rfl) (by rfl) (by decide) (by decide)

theorem fallback_trace (transfer : Str → Str → Bool)
    (l : List (Str × Str)) (acc : List (Str × Str) × List (Str × Bool)) :
    (l.foldl (fun acc entry =>
      (acc.1 ++ [entry], dictInsertBool acc.2 entry.2
        (transfer entry.1 entry.2))) acc).1 = acc.1 ++ l := by
  induction l generalizing acc with
  | nil => simp
  | cons e rest ih =>
    simp only [List.foldl_cons]
    rw [ih]
    simp

/-- Claim C8: when the batch transfer collaborator is unavailable, every
entry of the "to fetch" list (plan entries whose target does not already
exist) receives exactly one fallback single-transfer call; the calls are
issued sequentially in the input order of the list, each with that
entry's (url, target path) pair: the call trace of the fallback loop is
exactly the missing-downloads list. -/
theorem claim8_fallback_calls (existsOnDisk : Str → Bool)
    (transfer : Str → Str → Bool) (downloadable : List PlanEntry) :
    (fallback_downloads transfer
      (missing_downloads existsOnDisk downloadable)).1 =
      missing_downloads existsOnDisk downloadable := by
  unfold fallback_downloads
  rw [fallback_trace]
  simp

theorem digit_ne_underscore (ds : Str) (hds : ∀ d ∈ ds, d.isDigit = true) :
    '_' ∉ ds := fun hmem => absurd (hds '_' hmem) (by decide)

theorem digit_ne_dot (ds : Str) (hds : ∀ d ∈ ds, d.isDigit = true) :
    '.' ∉ ds := fun hmem => absurd (hds '.' hmem) (by decide)

theorem startsWith_nil (s : Str) : startsWith s [] = true := by
  cases s <;> rfl

theorem startsWith_append_self (p s : Str) : startsWith (p ++ s) p = true := by
  induction p with
  | nil =>
    rw [List.nil_append]
    exact startsWith_nil s
  | cons c cs ih =>
    show (decide (c = c) && startsWith (cs ++ s) cs) = true
    rw [ih]
    simp

/-- Claim C7: the record with accession `GCF_034719275.1` and assembly
name `ASM3471927v1` derives exactly the expected NCBI URL. -/
theorem claim7_concrete_url :
    generate_download_link ⟨toStr "GCF_034719275.1", toStr "ASM3471927v1"⟩ =
      Except.ok (toStr "https://ftp.ncbi.nlm.nih.gov/genomes/all/GCF/034/719/275/GCF_034719275.1_ASM3471927v1/GCF_034719275.1_ASM3471927v1_genomic.fna.gz") := by
  rfl

/-- Claim C3 counterexample: the record `GCF_123456.1` satisfies the
claim's hypothesis — its normalized accession starts with `GCF_` and its
digit run has length 6, hence at least 6 — yet `generate_download_link`
raises the too-short error instead of succeeding. -/
theorem claim3_counterexample :
    stripSourceTag (toStr "GCF_123456.1") =
      'G' :: 'C' :: 'F' :: '_' :: (toStr "123456" ++ toStr ".1") ∧
    (∀ d ∈ toStr "123456", d.isDigit = true) ∧
    (toStr "123456").length = 6 ∧
    generate_download_link ⟨toStr "GCF_123456.1", toStr "ASM1v1"⟩ =
      Except.error LinkError.tooShort := by
  refine ⟨by decide, by decide, by decide, ?_⟩
  rfl

/-- Claim C3 (amended): for every record with a non-empty assembly-name
field whose source-stripped accession is `GCA_` or `GCF_` followed by a
digit run of length at least 7 and an optional `.<version>` suffix,
`generate_download_link` succeeds, and the three grouping path segments
of the produced URL concatenate back to the digit run. -/
theorem claim3_digit_grouping (accession assembly : Str) (c : Char)
    (ds rest : Str)
    (hc : c = 'A' ∨ c = 'F')
    (hacc : stripSourceTag accession = 'G' :: 'C' :: c :: '_' :: (ds ++ rest))
    (hds : ∀ d ∈ ds, d.isDigit = true)
    (hlen : 7 ≤ ds.length)
    (hrest : rest = [] ∨ ∃ rr, rest = '.' :: rr)
    (hasm : assembly ≠ []) :
    ∃ d1 d2 d3,
      generate_download_link ⟨accession, assembly⟩ =
        Except.ok (toStr "https://ftp.ncbi.nlm.nih.gov/genomes/all/" ++
          ('G' :: 'C' :: [c]) ++ '/' :: d1 ++ '/' :: d2 ++ '/' :: d3 ++
          '/' :: (stripSourceTag accession ++ '_' :: assembly) ++
          '/' :: (stripSourceTag accession ++ '_' :: assembly) ++
          toStr "_genomic.fna.gz") ∧
      d1 ++ d2 ++ d3 = ds := by
  have hus : '_' ∉ ds := digit_ne_underscore ds hds
  have hdot : '.' ∉ ds := digit_ne_dot ds hds
  have haccne : accession ≠ [] := by
    intro hx
    rw [hx] at hacc
    have h0 : stripSourceTag ([] : Str) = [] := rfl
    rw [h0] at hacc
    exact List.noConfusion hacc
  have hsplit : splitChar '_' (stripSourceTag accession) =
      ['G', 'C', c] :: splitChar '_' (ds ++ rest) := by
    rw [hacc]
    have h1 : ('G' :: 'C' :: c :: '_' :: (ds ++ rest) : Str) =
        ['G', 'C', c] ++ ('_' :: (ds ++ rest)) := rfl
    rw [h1]
    have hGC : '_' ∉ (['G', 'C', c] : Str) := by
      rcases hc with rfl | rfl
      · decide
      · decide
    rw [splitChar_append_left '_' _ _ hGC, splitChar_cons_sep]
    simp
  have hnum : numericId (stripSourceTag accession) = ds := by
    unfold numericId
    rw [hsplit]
    show (splitChar '.' ((splitChar '_' (ds ++ rest)).headD [])).headD [] = ds
    rcases hrest with hr0 | ⟨rr, hr0⟩
    · subst hr0
      rw [List.append_nil, splitChar_no_sep '_' ds hus]
      show (splitChar '.' ds).headD [] = ds
      rw [splitChar_no_sep '.' ds hdot]
      rfl
    · subst hr0
      rw [splitChar_append_left '_' ds ('.' :: rr) hus,
        splitChar_cons_of_ne '_' '.' rr (by decide)]
      show (splitChar '.'
        (ds ++ '.' :: (splitChar '_' rr).headD [])).headD [] = ds
      rw [splitChar_append_left '.' ds ('.' :: (splitChar '_' rr).headD [])
        hdot, splitChar_cons_sep]
      show ds ++ ([] :: splitChar '.' ((splitChar '_' rr).headD [])).headD []
        = ds
      simp
  have hlen2 : ¬ (splitChar '_' (stripSourceTag accession)).length < 2 := by
    rw [hsplit]
    have h1 : splitChar '_' (ds ++ rest) ≠ [] := splitChar_ne_nil _ _
    have h2 : 0 < (splitChar '_' (ds ++ rest)).length := List.length_pos.2 h1
    simp only [List.length_cons]
    omega
  have hsw : startsWith (stripSourceTag accession) (toStr "GCA_") = true ∨
      startsWith (stripSourceTag accession) (toStr "GCF_") = true := by
    rcases hc with rfl | rfl
    · left
      rw [hacc]
      show startsWith (toStr "GCA_" ++ (ds ++ rest)) (toStr "GCA_") = true
      exact startsWith_append_self _ _
    · right
      rw [hacc]
      show startsWith (toStr "GCF_" ++ (ds ++ rest)) (toStr "GCF_") = true
      exact startsWith_append_self _ _
  refine ⟨ds.take 3, (ds.drop 3).take 3, ds.drop 6, ?_, ?_⟩
  · show (if accession = [] ∨ assembly = [] then
        Except.error LinkError.missingFields
      else if startsWith (stripSourceTag accession) (toStr "GCA_") = true ∨
          startsWith (stripSourceTag accession) (toStr "GCF_") = true then
        if (splitChar '_' (stripSourceTag accession)).length < 2 then
          Except.error LinkError.invalidFormat
        else urlFromParts (stripSourceTag accession) assembly
      else Except.error LinkError.unknownFormat) = _
    rw [if_neg (by
      push_neg
      exact ⟨haccne, hasm⟩), if_pos hsw, if_neg hlen2]
    simp only [urlFromParts, hnum]
    have h6le : 6 ≤ ds.length := by omega
    have h6lt : 6 < ds.length := by omega
    rw [if_pos h6le, if_pos h6lt]
    have hd2 : ((ds.drop 3).take 3 : Str) ≠ [] := by
      intro hx
      have h1 := congrArg List.length hx
      rw [List.length_take, List.length_drop] at h1
      simp at h1
      omega
    have hd3 : (ds.drop 6 : Str) ≠ [] := by
      intro hx
      have h1 := congrArg List.length hx
      rw [List.length_drop] at h1
      simp at h1
      omega
    rw [if_neg (by
      push_neg
      exact ⟨hd2, hd3⟩)]
    rw [hsplit]
    rfl
  · have h2 : ((ds.drop 3).drop 3 : Str) = ds.drop 6 := by
      rw [List.drop_drop]
    have h1 : ((ds.drop 3).take 3 ++ ds.drop 6 : Str) = ds.drop 3 := by
      rw [← h2, List.take_append_drop]
    rw [List.append_assoc, h1, List.take_append_drop]

/-- Witness for the amended C3 at a seven-digit run with an `RS_` tag. -/
theorem claim3_witness :
    ∃ d1 d2 d3,
      generate_download_link ⟨toStr "RS_GCF_0347192.1", toStr "ASMx"⟩ =
        Except.ok (toStr "https://ftp.ncbi.nlm.nih.gov/genomes/all/" ++
          ('G' :: 'C' :: ['F']) ++ '/' :: d1 ++ '/' :: d2 ++ '/' :: d3 ++
          '/' :: (stripSourceTag (toStr "RS_GCF_0347192.1") ++
            '_' :: toStr "ASMx") ++
          '/' :: (stripSourceTag (toStr "RS_GCF_0347192.1") ++
            '_' :: toStr "ASMx") ++
          toStr "_genomic.fna.gz") ∧
      d1 ++ d2 ++ d3 = toStr "0347192" :=
  claim3_digit_grouping (toStr "RS_GCF_0347192.1") (toStr "ASMx") 'F'
    (toStr "0347192") (toStr ".1") (Or.inr rfl) (by decide) (by decide)
    (by decide) (Or.inr ⟨toStr "1", by decide⟩) (by decide)
